import Mathlib

/-!
Verification of the node core of `the-blockchain-pub` (a small proof-of-work
ledger node written in Go).  The Go source is shallowly embedded: pure Go
functions become Lean functions, in-place mutation of the `Node` receiver
becomes explicit state passing, machine integers become `Nat`/`Int` with the
wrap/clamp points of the Go arithmetic made explicit, and fallible Go
functions return `Option`/`Except`.  Disk reads (the block store) and the
content-hash function (keccak over the canonical encoding, which lives
outside the embedded files) are passed in as explicit arguments.
-/

namespace TBP

/-! ## Data model (from `database` package types and spec section 3) -/

/-- 20-byte account identifier (`common.Address`); modelled as a plain value
with decidable equality, since the embedded code only ever compares
addresses (via their hashes, which agree exactly on equal addresses). -/
abbrev Address := Nat

/-- 32-byte content digest (`database.Hash`): a list of 32 byte values. -/
structure Hash where
  bytes : List Nat
deriving DecidableEq

/-- The Go zero value `database.Hash{}`: 32 zero bytes. -/
def zeroHash : Hash := ⟨List.replicate 32 0⟩

/-- A signed transaction (`database.SignedTx`, with the embedded `Tx` fields
flattened the way Go field promotion exposes them).  The signature bytes are
carried but never inspected by the embedded node code. -/
structure SignedTx where
  From : Address
  To : Address
  Value : Nat
  Nonce : Nat
  Data : String
  Sig : List Nat
deriving DecidableEq

/-- `database.BlockHeader`. -/
structure BlockHeader where
  Parent : Hash
  Number : Nat
  Nonce : Nat
  Time : Nat
  Miner : Address
  Difficulty : Nat
deriving DecidableEq

/-- `database.Block`. -/
structure Block where
  Header : BlockHeader
  TXs : List SignedTx
deriving DecidableEq

/-- `database.BlockFS`: one persisted block-store record (key = block hash). -/
structure BlockFS where
  Key : Hash
  Value : Block
deriving DecidableEq

/-- Modelled from the spec: `database.NewBlock` just assembles a block from
the header fields and the transaction list (spec section 3 data model). -/
def NewBlock (parent : Hash) (number : Nat) (nonce : Nat) (time : Nat)
    (miner : Address) (difficulty : Nat) (txs : List SignedTx) : Block :=
  ⟨⟨parent, number, nonce, time, miner, difficulty⟩, txs⟩

/-- The Go zero value `database.Block{}`. -/
def emptyBlock : Block := NewBlock zeroHash 0 0 0 0 0 []

/-! ## Hex rendering and the proof-of-work predicate -/

/-- One hex digit, lowercase. -/
def hexDigit (n : Nat) : Char := (String.toList "0123456789abcdef").getD n 'x'

/-- Lowercase hex rendering of a byte list, two characters per byte. -/
def hexChars : List Nat → List Char
  | [] => []
  | b :: bs => hexDigit ((b % 256) / 16) :: hexDigit (b % 16) :: hexChars bs

/-- Modelled from the spec: `database.IsBlockHashValid` (the file defining it
is not part of the embedded sources).  Spec section 4.5: the hash is valid
for `difficulty` iff "the hex rendering of the 32-byte hash begins with
exactly `difficulty` ASCII '0' characters" — the first `difficulty` hex
characters are '0' and the following one (when there is one) is not. -/
def IsBlockHashValid (hash : Hash) (difficulty : Nat) : Bool :=
  let s := hexChars hash.bytes
  decide (s.take difficulty = List.replicate difficulty '0') &&
    (match s.get? difficulty with
     | some c => decide (c ≠ '0')
     | none => true)

/-! ## Adaptive difficulty (from `node.go`: `GetAproximateBlockResolutionTime`,
`GetNewDifficulty`, `ChangeMiningDifficulty`, `CheckDifficulty`) -/

/-- Modelled from the spec: `database.BlockNumberToCheckDifficulty`
(constant, spec sections 4.4 and 8: 10). -/
def BlockNumberToCheckDifficulty : Nat := 10

/-- Modelled from the spec: `database.MiningAproxTime`, the target average
inter-block time (spec sections 4.4 and 8: 15 seconds), in nanoseconds as a
Go `time.Duration`. -/
def MiningAproxTime : Int := 15 * 1000000000

def maxInt64 : Int := 2 ^ 63 - 1
def minInt64 : Int := -(2 ^ 63)

/-- Go `int64(u)` for a `uint64` value: wrap modulo `2^64` into the signed
range. -/
def toInt64 (n : Nat) : Int :=
  if n % 2 ^ 64 < 2 ^ 63 then ((n % 2 ^ 64 : Nat) : Int)
  else ((n % 2 ^ 64 : Nat) : Int) - 2 ^ 64

/-- Go `time.Time.Sub` saturates to the `Duration` (int64) bounds. -/
def clampDuration (d : Int) : Int := max minInt64 (min maxInt64 d)

/-- `Node.GetAproximateBlockResolutionTime`, with the block-store read
(`database.GetBlocksBefore(latestHash, BlockNumberToCheckDifficulty, dir)`)
supplied as the `blocks` argument.  Returns the Go `time.Duration` in
nanoseconds: 0 for an empty window, otherwise the (saturating) difference
between the last and first header times divided (truncating, as Go int64
division) by the window length. -/
def GetAproximateBlockResolutionTime (blocks : List BlockFS) : Int :=
  if h : blocks = [] then 0
  else
    let firstBlock := blocks.head h
    let lastBlock := blocks.getLast h
    let diff := clampDuration
      ((toInt64 lastBlock.Value.Header.Time - toInt64 firstBlock.Value.Header.Time)
        * 1000000000)
    Int.tdiv diff (blocks.length : Int)

/-- `Node.GetNewDifficulty`, with the disk window supplied as `blocks`.
Faithful to the source: error when the current difficulty is 0; keep the
difficulty when the measured average is 0; `+1` when the average is below
the target, `-1` (with no floor: Go `uint64` arithmetic, here `Nat`
subtraction on a non-zero value) when above, unchanged when equal. -/
def GetNewDifficulty (miningDifficulty : Nat) (blocks : List BlockFS) :
    Except String Nat :=
  if miningDifficulty = 0 then .error "mining difficulty is 0"
  else
    let average := GetAproximateBlockResolutionTime blocks
    if average = 0 then .ok miningDifficulty
    else if average < MiningAproxTime then .ok (miningDifficulty + 1)
    else if MiningAproxTime < average then .ok (miningDifficulty - 1)
    else .ok miningDifficulty

/-! ## Miner (from `node/miner.go`) -/

/-- `node.PendingBlock` (all fields unexported in Go). -/
structure PendingBlock where
  parent : Hash
  number : Nat
  time : Nat
  miner : Address
  difficulty : Nat
  txs : List SignedTx
deriving DecidableEq

/-- `node.NewPendingBlock`; `now` is the `time.Now().Unix()` value captured
once when the pending block is created. -/
def NewPendingBlock (parent : Hash) (number : Nat) (miner : Address)
    (difficulty : Nat) (txs : List SignedTx) (now : Nat) : PendingBlock :=
  ⟨parent, number, now, miner, difficulty, txs⟩

/-- The candidate block assembled by `Mine` at a given value of its
`attempt` counter: the header nonce is `uint32(attempt)`, i.e. `attempt`
reduced modulo `2^32`, and every other field comes from the pending block
(the timestamp in particular stays `pb.time`). -/
def mineCandidate (pb : PendingBlock) (attempt : Nat) : Block :=
  NewBlock pb.parent pb.number (attempt % 2 ^ 32) pb.time pb.miner pb.difficulty pb.txs

/-- The `for !database.IsBlockHashValid(hash, pb.difficulty)` loop of
`node.Mine`.  `block`/`hash`/`attempt` are the Go loop variables (initially
the zero block, the zero hash, and 0); `hashFn` abstracts
`database.Block.Hash()` (keccak over the canonical encoding, outside the
embedded sources); `fuel` bounds the number of loop-condition checks and
models the cancellation context — `none` is the cancelled/unfinished run. -/
def mineLoop (hashFn : Block → Hash) (pb : PendingBlock) :
    Block → Hash → Nat → Nat → Option Block
  | _, _, _, 0 => none
  | block, hash, attempt, fuel + 1 =>
    if IsBlockHashValid hash pb.difficulty then some block
    else
      mineLoop hashFn pb (mineCandidate pb attempt)
        (hashFn (mineCandidate pb attempt)) (attempt + 1) fuel

/-- `node.Mine`: run the search loop from the Go zero values. -/
def Mine (hashFn : Block → Hash) (pb : PendingBlock) (fuel : Nat) : Option Block :=
  mineLoop hashFn pb emptyBlock zeroHash 0 fuel

/-! ## Mempool maps

Go keys the mempool maps by `txHash.Hex()`.  `Hex()` renders exactly the 32
hash bytes, so two keys are equal iff the hashes are; the maps are modelled
as association lists keyed by `Hash` with unique keys maintained by
`insertKey`. -/

def lookupKey (k : Hash) : List (Hash × SignedTx) → Option SignedTx
  | [] => none
  | (k', v) :: m => if k = k' then some v else lookupKey k m

def containsKey (k : Hash) (m : List (Hash × SignedTx)) : Bool :=
  (lookupKey k m).isSome

/-- Go `delete(m, k)`. -/
def eraseKey (k : Hash) : List (Hash × SignedTx) → List (Hash × SignedTx)
  | [] => []
  | (k', v) :: m => if k = k' then eraseKey k m else (k', v) :: eraseKey k m

/-- Go `m[k] = v` (overwrite). -/
def insertKey (k : Hash) (v : SignedTx) (m : List (Hash × SignedTx)) :
    List (Hash × SignedTx) :=
  (k, v) :: eraseKey k m

/-! ## State and Node (from `node.go`) -/

/-- `database.State` (spec section 3): the in-memory ledger.  Only the
fields the embedded node code touches are carried; `Copy()` is a by-value
clone, which for these pure values is the value itself. -/
structure State where
  Balances : List (Address × Nat)
  account2nonce : List (Address × Nat)
  latestBlock : Block
  latestHash : Hash
  miningDifficulty : Nat
deriving DecidableEq

/-- `node.Node`, restricted to the fields the embedded operations read or
write (the networking fields — peers, channels, data dir — are omitted). -/
structure Node where
  state : State
  pendingState : State
  pendingTXs : List (Hash × SignedTx)
  archivedTXs : List (Hash × SignedTx)
  miningDifficulty : Nat
deriving DecidableEq

/-- `Node.ChangeMiningDifficulty`: sets the node field and (modelled from
the spec, section 4.4 `change_difficulty`) the state's difficulty. -/
def ChangeMiningDifficulty (n : Node) (newDifficulty : Nat) : Node :=
  { n with
    miningDifficulty := newDifficulty
    state := { n.state with miningDifficulty := newDifficulty } }

/-- `Node.CheckDifficulty`, with the disk window for
`GetAproximateBlockResolutionTime` supplied as `window`. -/
def CheckDifficulty (window : List BlockFS) (n : Node) : Except String Node :=
  if n.state.latestBlock.Header.Number % BlockNumberToCheckDifficulty = 0 then
    match GetNewDifficulty n.miningDifficulty window with
    | .error e => .error e
    | .ok d => .ok (ChangeMiningDifficulty n d)
  else .ok n

/-- `Node.addBlock`.  `applyBlock` abstracts `database.State.AddBlock`
(outside the embedded sources; per spec section 4.4 a failed application
leaves the state unchanged, which the `Except` value-passing makes
intrinsic).  The Go `defer` re-clones the canonical state into the pending
state on every return path; a `CheckDifficulty` error is only logged. -/
def addBlock (applyBlock : Block → State → Except String State)
    (window : List BlockFS) (n : Node) (block : Block) : Option String × Node :=
  match applyBlock block n.state with
  | .error e => (some e, { n with pendingState := n.state })
  | .ok st =>
    let n1 := { n with state := st }
    let n2 := match CheckDifficulty window n1 with
      | .error _ => n1
      | .ok n' => n'
    (none, { n2 with pendingState := n2.state })

/-- `Node.AddPendingTX`.  `txHashFn` abstracts `SignedTx.Hash()`; `applyTx`
abstracts `database.ApplyTx` run against the pending state
(`validateTxBeforeAddingToMempool`).  The Go comparison
`tx.From.Hash() == pendingTx.From.Hash()` is address equality.  The result
pairs the returned error (if any) with the node after the call; every Go
`return err` path leaves the node untouched.  The channel send on success
is not modelled. -/
def AddPendingTX (txHashFn : SignedTx → Hash)
    (applyTx : SignedTx → State → Except String State)
    (n : Node) (tx : SignedTx) : Option String × Node :=
  let txHash := txHashFn tx
  let isAlreadyPending := containsKey txHash n.pendingTXs
  let isArchived := containsKey txHash n.archivedTXs
  if n.pendingTXs.any
      (fun p => decide (tx.From = p.2.From) && decide (p.2.Nonce = tx.Nonce)) then
    (some "TX with same nonce already pending", n)
  else if !isAlreadyPending && !isArchived then
    match applyTx tx n.pendingState with
    | .error e => (some e, n)
    | .ok ps =>
      (none, { n with
        pendingState := ps
        pendingTXs := insertKey txHash tx n.pendingTXs })
  else (none, n)

/-- The body of the `for _, tx := range block.TXs` loop of
`Node.removeMinedPendingTXs`. -/
def removeMinedStep (txHashFn : SignedTx → Hash) (n : Node) (tx : SignedTx) : Node :=
  if containsKey (txHashFn tx) n.pendingTXs then
    { n with
      archivedTXs := insertKey (txHashFn tx) tx n.archivedTXs
      pendingTXs := eraseKey (txHashFn tx) n.pendingTXs }
  else n

/-- `Node.removeMinedPendingTXs`. -/
def removeMinedPendingTXs (txHashFn : SignedTx → Hash) (n : Node)
    (block : Block) : Node :=
  block.TXs.foldl (removeMinedStep txHashFn) n

/-! ## Mempool snapshot (from `node.go`: `getPendingTXsAsArray`) -/

/-- The sort key of the Go `sort.Slice(txs, func(i, j) ...Nonce < ...Nonce)`
call, as the corresponding non-strict total order. -/
def nonceLE (a b : SignedTx) : Prop := a.Nonce ≤ b.Nonce

instance : DecidableRel nonceLE := fun a b => Nat.decLe a.Nonce b.Nonce

instance : IsTotal SignedTx nonceLE := ⟨fun a b => Nat.le_total a.Nonce b.Nonce⟩

instance : IsTrans SignedTx nonceLE := ⟨fun _ _ _ => Nat.le_trans⟩

/-- `Node.getPendingTXsAsArray`.  The Go code copies the mempool map values
in `range` order — which the Go language leaves unspecified — and sorts
them with `sort.Slice`, which guarantees only the `Nonce` ordering (it is
documented as not stable).  The unspecified `range` linearisation is the
`iter` argument; the sort is modelled by a concrete sort meeting the
`sort.Slice` contract. -/
def getPendingTXsAsArray (iter : List SignedTx) : List SignedTx :=
  List.insertionSort nonceLE iter

/-! ## HTTP sync handler parameters (from `node/http_routes.go`) -/

/-- Go `strconv.ParseInt(s, 10, 64)`: optional single sign, at least one
decimal digit, nothing else, value within the signed 64-bit range;
`none` is Go's non-nil error. -/
def parseDigits : List Char → Option Nat
  | [] => none
  | ds => ds.foldl
      (fun acc c => match acc with
        | none => none
        | some n => if c.isDigit then some (n * 10 + (c.toNat - 48)) else none)
      (some 0)

def ParseInt64 (s : String) : Option Int :=
  match s.toList with
  | [] => none
  | c :: rest =>
    let signed : Bool × List Char :=
      if c = '-' then (true, rest)
      else if c = '+' then (false, rest)
      else (false, c :: rest)
    match parseDigits signed.2 with
    | none => none
    | some n =>
      let v : Int := if signed.1 then -(n : Int) else (n : Int)
      if minInt64 ≤ v ∧ v ≤ maxInt64 then some v else none

/-- `node.syncHandler`, from query-parameter extraction to the response.
`getBlocksAfter`/`getBlocksBefore` abstract the block-store reads
(`none` = I/O error) and `parseHash` abstracts `Hash.UnmarshalText`. -/
def syncHandler (getBlocksAfter getBlocksBefore : Hash → Int → Option (List BlockFS))
    (parseHash : String → Option Hash)
    (reqHash reqMode reqLast : String) : Except String (List BlockFS) :=
  let last : Int := match ParseInt64 reqLast with
    | none => 10
    | some v => v
  let mode : String :=
    if reqMode = "" ∨ (reqMode ≠ "after" ∧ reqMode ≠ "before") then "before"
    else reqMode
  match parseHash reqHash with
  | none => .error "bad fromBlock hash"
  | some hash =>
    if mode = "after" then
      match getBlocksAfter hash last with
      | none => .error "block store read failed"
      | some blocks => .ok blocks
    else
      match getBlocksBefore hash last with
      | none => .error "block store read failed"
      | some blocks => .ok blocks

/-! ## Sample values used by concrete witnesses and counterexamples -/

deriving instance DecidableEq for Except

/-- A block-store record whose block was mined at Unix time `t`. -/
def blockAt (t : Nat) : BlockFS := ⟨zeroHash, NewBlock zeroHash 0 0 t 0 1 []⟩

/-- Two blocks 60 seconds apart: average 30s, slower than the 15s target. -/
def slowWindow : List BlockFS := [blockAt 0, blockAt 60]

/-- Two blocks with identical header times: measured average 0. -/
def equalTimesWindow : List BlockFS := [blockAt 100, blockAt 100]

/-- Two blocks 10 seconds apart: average 5s, faster than the 15s target. -/
def fastWindow : List BlockFS := [blockAt 0, blockAt 10]

def tx0 : SignedTx := ⟨1, 2, 10, 1, "", []⟩

/-- Same sender and nonce as `tx0`, different recipient and value. -/
def tx1 : SignedTx := ⟨1, 3, 99, 1, "", []⟩

def txA : SignedTx := ⟨1, 2, 5, 7, "", []⟩

/-- Same nonce as `txA`, different sender. -/
def txB : SignedTx := ⟨3, 4, 6, 7, "", []⟩

def hashKey1 : Hash := ⟨List.replicate 32 1⟩
def hashKey2 : Hash := ⟨List.replicate 32 2⟩

def mempool0 : List (Hash × SignedTx) := [(hashKey1, txA), (hashKey2, txB)]

def constHash : SignedTx → Hash := fun _ => zeroHash

def applyTxOk : SignedTx → State → Except String State := fun _ s => .ok s

def applyBlockFail : Block → State → Except String State := fun _ _ => .error "invalid block"

def applyBlockOk : Block → State → Except String State := fun _ s => .ok s

def st0 : State := ⟨[], [], emptyBlock, zeroHash, 2⟩
def st1 : State := ⟨[], [], emptyBlock, zeroHash, 3⟩

def nodeArchived : Node := ⟨st0, st0, [], [(zeroHash, tx0)], 2⟩
def nodePending : Node := ⟨st0, st0, [(zeroHash, tx0)], [], 2⟩

/-- A node whose pending state differs from its canonical state. -/
def nodeSplit : Node := ⟨st0, st1, [], [], 2⟩

/-- A block hash function that never produces a leading zero nibble. -/
def hashFF : Block → Hash := fun _ => ⟨List.replicate 32 255⟩

/-- A block hash function whose first byte is `nonce + 3` mod 16: the
candidate at attempt 0 hashes to hex `03ff…`, valid at difficulty 1. -/
def hashNib : Block → Hash :=
  fun blk => ⟨(blk.Header.Nonce + 3) % 16 :: List.replicate 31 255⟩

def pb64 : PendingBlock := ⟨zeroHash, 1, 7, 9, 64, []⟩
def pb1 : PendingBlock := ⟨zeroHash, 1, 7, 9, 1, []⟩

def blockTx0 : Block := NewBlock zeroHash 1 0 5 9 2 [tx0]

def ga0 : Hash → Int → Option (List BlockFS) := fun _ _ => some []
def gb0 : Hash → Int → Option (List BlockFS) := fun _ _ => some [blockAt 0]
def ph0 : String → Option Hash := fun _ => some zeroHash

/-! ## C1 — the adaptive-difficulty adjustment has no floor at 1 -/

/-- C1: the claim says a slower-than-target average turns difficulty `d`
into `max (d - 1) 1`, never below 1.  The code has no floor: at difficulty
1 with a slow window (average 30s > 15s target) `GetNewDifficulty` returns
0, a state its own first guard then rejects as an error forever after. -/
theorem C1_difficulty_floor_missing :
    MiningAproxTime < GetAproximateBlockResolutionTime slowWindow ∧
    GetNewDifficulty 1 slowWindow = .ok 0 ∧
    GetNewDifficulty 0 slowWindow = .error "mining difficulty is 0" := by
  refine ⟨by decide, rfl, rfl⟩

/-! ## C2 — GetNewDifficulty trichotomy, with the average-zero early return -/

/-- C2 counterexample: a non-empty window of blocks with equal header times
measures an average of 0, which is strictly below `MiningAproxTime`, yet
`GetNewDifficulty` keeps the difficulty at 5 instead of raising it to 6 as
the claim requires. -/
theorem C2_zero_average_counterexample :
    GetAproximateBlockResolutionTime equalTimesWindow < MiningAproxTime ∧
    equalTimesWindow ≠ [] ∧
    GetNewDifficulty 5 equalTimesWindow = .ok 5 ∧
    GetNewDifficulty 5 equalTimesWindow ≠ .ok 6 := by
  refine ⟨by decide, by decide, rfl, by decide⟩

/-- C2 (amended): for a non-zero difficulty, `GetNewDifficulty` returns the
difficulty unchanged when the measured average is 0, `d + 1` when the
average is non-zero and below the target, `d - 1` when above, and `d`
when exactly equal. -/
theorem C2_GetNewDifficulty_trichotomy (d : Nat) (w : List BlockFS) (hd : d ≠ 0) :
    (GetAproximateBlockResolutionTime w = 0 → GetNewDifficulty d w = .ok d) ∧
    (GetAproximateBlockResolutionTime w ≠ 0 →
      GetAproximateBlockResolutionTime w < MiningAproxTime →
      GetNewDifficulty d w = .ok (d + 1)) ∧
    (MiningAproxTime < GetAproximateBlockResolutionTime w →
      GetNewDifficulty d w = .ok (d - 1)) ∧
    (GetAproximateBlockResolutionTime w = MiningAproxTime →
      GetNewDifficulty d w = .ok d) := by
  unfold GetNewDifficulty
  rw [if_neg hd]
  refine ⟨?_, ?_, ?_, ?_⟩
  · intro h; simp [h]
  · intro h0 hlt; simp [h0, hlt]
  · intro hgt
    have h0 : ¬ GetAproximateBlockResolutionTime w = 0 := by
      intro hz; rw [hz] at hgt; exact absurd hgt (by decide)
    have hnlt : ¬ GetAproximateBlockResolutionTime w < MiningAproxTime :=
      not_lt.mpr (le_of_lt hgt)
    simp [h0, hnlt, hgt]
  · intro heq
    have h0 : ¬ GetAproximateBlockResolutionTime w = 0 := by
      rw [heq]; decide
    have hnlt : ¬ GetAproximateBlockResolutionTime w < MiningAproxTime := by
      rw [heq]; exact lt_irrefl _
    have hngt : ¬ MiningAproxTime < GetAproximateBlockResolutionTime w := by
      rw [heq]; exact lt_irrefl _
    simp [h0, hnlt, hngt]

/-- C2 witness: a fast window (average 5s) at difficulty 5 yields 6. -/
theorem C2_GetNewDifficulty_trichotomy_witness :
    GetNewDifficulty 5 fastWindow = .ok 6 :=
  (C2_GetNewDifficulty_trichotomy 5 fastWindow (by decide)).2.1 (by decide) (by decide)

/-! ## C8 — sync handler parameter defaults -/

/-- C8: the two parameter defaults hold independently.  Whenever the
`last` query parameter fails to parse as a base-10 signed 64-bit integer,
the sync handler behaves — for any `mode`, valid or not — exactly as if
`last` were "10"; and whenever the `mode` parameter is missing or is
neither "after" nor "before", the handler behaves — for any `last` — as if
`mode` were "before".  Neither malformed parameter alone (nor both) ever
produces an error response that the defaulted run would not produce. -/
theorem C8_syncHandler_param_defaults
    (ga gb : Hash → Int → Option (List BlockFS)) (ph : String → Option Hash)
    (reqHash reqMode reqLast : String) :
    (ParseInt64 reqLast = none →
      syncHandler ga gb ph reqHash reqMode reqLast
        = syncHandler ga gb ph reqHash reqMode "10") ∧
    (reqMode ≠ "after" → reqMode ≠ "before" →
      syncHandler ga gb ph reqHash reqMode reqLast
        = syncHandler ga gb ph reqHash "before" reqLast) := by
  constructor
  · intro hlast
    unfold syncHandler
    rw [hlast, show ParseInt64 "10" = some 10 from by decide]
  · intro hafter hbefore
    unfold syncHandler
    rw [if_pos (Or.inr ⟨hafter, hbefore⟩)]
    rw [if_neg (by decide :
      ¬ (("before" : String) = "" ∨ ("before" : String) ≠ "after" ∧ ("before" : String) ≠ "before"))]

/-- C8 witness: a malformed `last` with a valid `mode=after`, and a bad
`mode` with a well-formed `last=7`, each defaulted independently. -/
theorem C8_syncHandler_param_defaults_witness :
    syncHandler ga0 gb0 ph0 "00" "after" "12a"
      = syncHandler ga0 gb0 ph0 "00" "after" "10" ∧
    syncHandler ga0 gb0 ph0 "00" "junk" "7"
      = syncHandler ga0 gb0 ph0 "00" "before" "7" :=
  ⟨(C8_syncHandler_param_defaults ga0 gb0 ph0 "00" "after" "12a").1 (by decide),
    (C8_syncHandler_param_defaults ga0 gb0 ph0 "00" "junk" "7").2
      (by decide) (by decide)⟩

/-! ## C10 — addBlock re-clones the pending state even on failure -/

/-- C10: when `State.AddBlock` fails, the deferred reset still runs: the
node comes back with its pending state replaced by a clone of the
(unchanged) canonical state, discarding the pending state that had
screened the mempool, and the error is propagated. -/
theorem C10_addBlock_resets_pending_on_error
    (applyBlock : Block → State → Except String State) (window : List BlockFS)
    (n : Node) (block : Block) (e : String)
    (h : applyBlock block n.state = .error e) :
    addBlock applyBlock window n block = (some e, { n with pendingState := n.state }) := by
  unfold addBlock
  rw [h]

/-- C10 witness: a failing block application on a node whose pending state
differs from its canonical state. -/
theorem C10_addBlock_resets_pending_on_error_witness :
    addBlock applyBlockFail [] nodeSplit blockTx0
      = (some "invalid block", { nodeSplit with pendingState := nodeSplit.state }) ∧
    nodeSplit.pendingState ≠ nodeSplit.state :=
  ⟨C10_addBlock_resets_pending_on_error applyBlockFail [] nodeSplit blockTx0
    "invalid block" rfl, by decide⟩

/-! ## Miner lemmas -/

/-- Once the loop variables hold a candidate block and its hash, the rest of
the search is a first-match scan over the consecutive attempt counters. -/
theorem mineLoop_find (hashFn : Block → Hash) (pb : PendingBlock) :
    ∀ (fuel a : Nat),
      mineLoop hashFn pb (mineCandidate pb a) (hashFn (mineCandidate pb a)) (a + 1) fuel
        = ((List.range' a fuel).find?
            (fun i => IsBlockHashValid (hashFn (mineCandidate pb i)) pb.difficulty)).map
            (mineCandidate pb) := by
  intro fuel
  induction fuel with
  | zero => intro a; rfl
  | succ f ih =>
    intro a
    rw [List.range'_succ]
    cases hv : IsBlockHashValid (hashFn (mineCandidate pb a)) pb.difficulty
    · simp only [mineLoop, hv, Bool.false_eq_true, if_false, List.find?_cons]
      simpa using ih (a + 1)
    · simp [mineLoop, hv, List.find?_cons]

/-- When the zero hash does not already satisfy the difficulty, `Mine` is
the first-match scan over attempts `0, 1, 2, …`. -/
theorem Mine_eq_find (hashFn : Block → Hash) (pb : PendingBlock) (fuel : Nat)
    (h0 : IsBlockHashValid zeroHash pb.difficulty = false) :
    Mine hashFn pb (fuel + 1)
      = ((List.range fuel).find?
          (fun i => IsBlockHashValid (hashFn (mineCandidate pb i)) pb.difficulty)).map
          (mineCandidate pb) := by
  unfold Mine
  simp only [mineLoop, h0, Bool.false_eq_true, if_false]
  rw [show (0 + 1 : Nat) = 0 + 1 from rfl, mineLoop_find hashFn pb fuel 0,
    List.range_eq_range']

/-! ## C3 — a successfully mined block satisfies the PoW predicate -/

/-- C3 counterexample: at difficulty 64 the zero-initialised loop hash
already has 64 leading hex zeros, so `Mine` returns the Go zero block
immediately — and that block's hash does not satisfy the predicate. -/
theorem C3_difficulty64_counterexample :
    Mine hashFF pb64 1 = some emptyBlock ∧
    IsBlockHashValid (hashFF emptyBlock) pb64.difficulty = false := by
  refine ⟨rfl, by decide⟩

/-- C3 (amended): for every pending block whose difficulty the all-zero
hash does not already satisfy (every difficulty except 64), a run of
`Mine` that returns a block returns one whose hash satisfies the
proof-of-work predicate for the pending block's difficulty. -/
theorem C3_mined_block_satisfies_pow (hashFn : Block → Hash) (pb : PendingBlock)
    (fuel : Nat) (b : Block)
    (h0 : IsBlockHashValid zeroHash pb.difficulty = false)
    (hm : Mine hashFn pb fuel = some b) :
    IsBlockHashValid (hashFn b) pb.difficulty = true := by
  cases fuel with
  | zero => exact absurd hm (by simp [Mine, mineLoop])
  | succ f =>
    rw [Mine_eq_find hashFn pb f h0] at hm
    rw [Option.map_eq_some'] at hm
    obtain ⟨i, hfind, hb⟩ := hm
    have := List.find?_some hfind
    rw [← hb]
    simpa using this

/-- C3 witness: with a hash function putting the nonce's low nibble in the
first byte, attempt 0 already meets difficulty 1. -/
theorem C3_mined_block_satisfies_pow_witness :
    IsBlockHashValid (hashNib (mineCandidate pb1 0)) pb1.difficulty = true :=
  C3_mined_block_satisfies_pow hashNib pb1 2 (mineCandidate pb1 0)
    (by decide) (by decide)

/-! ## C9 — deterministic nonce enumeration -/

/-- C9: `Mine` scans candidate blocks for attempts `0, 1, 2, …` in order
and returns the first whose hash is valid; the candidate at a given
attempt carries the attempt counter reduced modulo `2^32` as its header
nonce (so the nonce wraps back to 0 once the 32-bit space is exhausted)
and the timestamp captured when the pending block was created. -/
theorem C9_mine_nonce_enumeration (hashFn : Block → Hash) (pb : PendingBlock)
    (fuel : Nat) (h0 : IsBlockHashValid zeroHash pb.difficulty = false) :
    Mine hashFn pb (fuel + 1)
      = ((List.range fuel).find?
          (fun i => IsBlockHashValid (hashFn (mineCandidate pb i)) pb.difficulty)).map
          (mineCandidate pb)
    ∧ ∀ attempt : Nat,
        (mineCandidate pb attempt).Header.Nonce = attempt % 2 ^ 32
        ∧ (mineCandidate pb attempt).Header.Time = pb.time :=
  ⟨Mine_eq_find hashFn pb fuel h0, fun _ => ⟨rfl, rfl⟩⟩

/-- C9 witness at difficulty 1 with two attempts of fuel. -/
theorem C9_mine_nonce_enumeration_witness :
    Mine hashNib pb1 (1 + 1)
      = ((List.range 1).find?
          (fun i => IsBlockHashValid (hashNib (mineCandidate pb1 i)) pb1.difficulty)).map
          (mineCandidate pb1)
    ∧ ∀ attempt : Nat,
        (mineCandidate pb1 attempt).Header.Nonce = attempt % 2 ^ 32
        ∧ (mineCandidate pb1 attempt).Header.Time = pb1.time :=
  C9_mine_nonce_enumeration hashNib pb1 1 (by decide)

/-! ## C4 — duplicate submission handling -/

/-- C4 counterexample: a transaction present only in the archived set is
not inserted, but `AddPendingTX` reports success (`nil` error in Go)
instead of the rejection error the claim requires. -/
theorem C4_archived_no_error_counterexample :
    containsKey (constHash tx0) nodeArchived.archivedTXs = true ∧
    nodeArchived.pendingTXs = [] ∧
    AddPendingTX constHash applyTxOk nodeArchived tx0 = (none, nodeArchived) := by
  refine ⟨rfl, rfl, by decide⟩

/-- C4 (amended): a transaction already in the pending set is rejected with
the duplicate-nonce error and the node is unchanged; a transaction in the
archived set (with no pending same-sender/same-nonce entry) is likewise
not inserted, but the call reports success rather than an error. -/
theorem C4_duplicate_submission (txHashFn : SignedTx → Hash)
    (applyTx : SignedTx → State → Except String State) (n : Node) (tx : SignedTx) :
    ((∃ k, (k, tx) ∈ n.pendingTXs) →
      AddPendingTX txHashFn applyTx n tx
        = (some "TX with same nonce already pending", n)) ∧
    (containsKey (txHashFn tx) n.archivedTXs = true →
      n.pendingTXs.any
        (fun p => decide (tx.From = p.2.From) && decide (p.2.Nonce = tx.Nonce)) = false →
      AddPendingTX txHashFn applyTx n tx = (none, n)) := by
  constructor
  · rintro ⟨k, hk⟩
    have hany : n.pendingTXs.any
        (fun p => decide (tx.From = p.2.From) && decide (p.2.Nonce = tx.Nonce)) = true :=
      List.any_eq_true.mpr ⟨(k, tx), hk, by simp⟩
    simp [AddPendingTX, hany]
  · intro harch hany
    simp [AddPendingTX, hany, harch]

/-- C4 witness: both branches at concrete nodes. -/
theorem C4_duplicate_submission_witness :
    AddPendingTX constHash applyTxOk nodePending tx0
      = (some "TX with same nonce already pending", nodePending) ∧
    AddPendingTX constHash applyTxOk nodeArchived tx0 = (none, nodeArchived) :=
  ⟨(C4_duplicate_submission constHash applyTxOk nodePending tx0).1
      ⟨zeroHash, by decide⟩,
    (C4_duplicate_submission constHash applyTxOk nodeArchived tx0).2
      (by decide) (by decide)⟩

/-! ## C5 — same sender, same nonce -/

/-- C5: when the mempool already holds a (different) pending transaction
with the same sender and the same nonce, `AddPendingTX` returns the
duplicate-nonce error and leaves the node — in particular the mempool —
unchanged. -/
theorem C5_same_nonce_rejected (txHashFn : SignedTx → Hash)
    (applyTx : SignedTx → State → Except String State) (n : Node) (tx : SignedTx)
    (p : Hash × SignedTx) (hp : p ∈ n.pendingTXs)
    (hFrom : p.2.From = tx.From) (hNonce : p.2.Nonce = tx.Nonce) (_ : p.2 ≠ tx) :
    AddPendingTX txHashFn applyTx n tx
      = (some "TX with same nonce already pending", n) := by
  have hany : n.pendingTXs.any
      (fun q => decide (tx.From = q.2.From) && decide (q.2.Nonce = tx.Nonce)) = true :=
    List.any_eq_true.mpr ⟨p, hp, by simp [hFrom, hNonce]⟩
  simp [AddPendingTX, hany]

/-- C5 witness: second transaction from the same sender with nonce 1 is
rejected and the mempool keeps its single entry. -/
theorem C5_same_nonce_rejected_witness :
    AddPendingTX constHash applyTxOk nodePending tx1
      = (some "TX with same nonce already pending", nodePending) ∧
    nodePending.pendingTXs.length = 1 :=
  ⟨C5_same_nonce_rejected constHash applyTxOk nodePending tx1 (zeroHash, tx0)
      (by decide) rfl rfl (by decide), rfl⟩

/-! ## C6 — the mempool snapshot -/

/-- C6 counterexample: the same two-entry mempool admits two `range`
linearisations (Go leaves map iteration order unspecified), and the two
resulting snapshots order the equal-nonce transactions differently — the
snapshot's tie order is not stable, nor even a function of the mempool. -/
theorem C6_snapshot_not_stable_counterexample :
    [txA, txB].Perm (mempool0.map Prod.snd) ∧
    [txB, txA].Perm (mempool0.map Prod.snd) ∧
    getPendingTXsAsArray [txA, txB] ≠ getPendingTXsAsArray [txB, txA] := by
  refine ⟨by decide, by decide, by decide⟩

/-- C6 (amended): for any `range` linearisation of the mempool, the
snapshot is a permutation of the mempool's transactions, sorted in
non-decreasing nonce order globally — hence non-decreasing per sender;
the relative order of equal-nonce transactions is unspecified. -/
theorem C6_snapshot_sorted_permutation (m : List (Hash × SignedTx))
    (iter : List SignedTx) (hiter : iter.Perm (m.map Prod.snd)) :
    (getPendingTXsAsArray iter).Perm (m.map Prod.snd) ∧
    List.Sorted nonceLE (getPendingTXsAsArray iter) ∧
    ∀ acc : Address,
      List.Sorted nonceLE
        ((getPendingTXsAsArray iter).filter (fun t => decide (t.From = acc))) :=
  ⟨(List.perm_insertionSort nonceLE iter).trans hiter,
    List.sorted_insertionSort nonceLE iter,
    fun acc => (List.sorted_insertionSort nonceLE iter).filter
      (fun t => decide (t.From = acc))⟩

/-- C6 witness at a concrete linearisation of the two-entry mempool. -/
theorem C6_snapshot_sorted_permutation_witness :
    (getPendingTXsAsArray [txB, txA]).Perm (mempool0.map Prod.snd) ∧
    List.Sorted nonceLE (getPendingTXsAsArray [txB, txA]) ∧
    ∀ acc : Address,
      List.Sorted nonceLE
        ((getPendingTXsAsArray [txB, txA]).filter (fun t => decide (t.From = acc))) :=
  C6_snapshot_sorted_permutation mempool0 [txB, txA] (by decide)

/-! ## Association-list map lemmas -/

theorem lookupKey_eraseKey_self (k : Hash) :
    ∀ m : List (Hash × SignedTx), lookupKey k (eraseKey k m) = none := by
  intro m
  induction m with
  | nil => rfl
  | cons p m ih =>
    obtain ⟨k', v⟩ := p
    simp only [eraseKey]
    split
    · exact ih
    · rename_i h
      simp only [lookupKey, if_neg h]
      exact ih

theorem lookupKey_eraseKey_ne (k k' : Hash) (hne : k ≠ k') :
    ∀ m : List (Hash × SignedTx), lookupKey k (eraseKey k' m) = lookupKey k m := by
  intro m
  induction m with
  | nil => rfl
  | cons p m ih =>
    obtain ⟨q, v⟩ := p
    simp only [eraseKey]
    split
    · rename_i h
      subst h
      simp only [lookupKey, if_neg hne]
      exact ih
    · simp only [lookupKey]
      split
      · rfl
      · exact ih

theorem containsKey_eraseKey_self (k : Hash) (m : List (Hash × SignedTx)) :
    containsKey k (eraseKey k m) = false := by
  simp [containsKey, lookupKey_eraseKey_self]

theorem containsKey_eraseKey_ne (k k' : Hash) (hne : k ≠ k')
    (m : List (Hash × SignedTx)) :
    containsKey k (eraseKey k' m) = containsKey k m := by
  simp [containsKey, lookupKey_eraseKey_ne k k' hne]

theorem containsKey_insertKey_self (k : Hash) (v : SignedTx)
    (m : List (Hash × SignedTx)) :
    containsKey k (insertKey k v m) = true := by
  simp [containsKey, insertKey, lookupKey]

theorem containsKey_insertKey_ne (k k' : Hash) (hne : k ≠ k') (v : SignedTx)
    (m : List (Hash × SignedTx)) :
    containsKey k (insertKey k' v m) = containsKey k m := by
  simp only [containsKey, insertKey, lookupKey, if_neg hne]
  exact congrArg Option.isSome (lookupKey_eraseKey_ne k k' hne m)

/-! ## Mempool purge lemmas (for `removeMinedPendingTXs`) -/

theorem removeMinedStep_pending_false (f : SignedTx → Hash) (n : Node)
    (t : SignedTx) (k : Hash) (h : containsKey k n.pendingTXs = false) :
    containsKey k (removeMinedStep f n t).pendingTXs = false := by
  unfold removeMinedStep
  split
  · by_cases hk : k = f t
    · subst hk
      exact containsKey_eraseKey_self (f t) n.pendingTXs
    · show containsKey k (eraseKey (f t) n.pendingTXs) = false
      rw [containsKey_eraseKey_ne k (f t) hk]
      exact h
  · exact h

theorem foldRemove_pending_false (f : SignedTx → Hash) :
    ∀ (txs : List SignedTx) (n : Node) (k : Hash),
      containsKey k n.pendingTXs = false →
      containsKey k (List.foldl (removeMinedStep f) n txs).pendingTXs = false := by
  intro txs
  induction txs with
  | nil => intro n k h; exact h
  | cons t txs ih =>
    intro n k h
    exact ih (removeMinedStep f n t) k (removeMinedStep_pending_false f n t k h)

theorem foldRemove_pending_absent (f : SignedTx → Hash) :
    ∀ (txs : List SignedTx) (n : Node) (t : SignedTx), t ∈ txs →
      containsKey (f t) (List.foldl (removeMinedStep f) n txs).pendingTXs = false := by
  intro txs
  induction txs with
  | nil => intro n t h; exact absurd h (List.not_mem_nil t)
  | cons u txs ih =>
    intro n t h
    rcases List.mem_cons.mp h with heq | hmem
    · subst heq
      rw [List.foldl_cons]
      apply foldRemove_pending_false
      unfold removeMinedStep
      split
      · exact containsKey_eraseKey_self (f t) n.pendingTXs
      · rename_i hc
        simpa using hc
    · exact ih (removeMinedStep f n u) t hmem

theorem removeMinedStep_union (f : SignedTx → Hash) (n : Node) (t : SignedTx)
    (k : Hash)
    (h : (containsKey k n.pendingTXs || containsKey k n.archivedTXs) = true) :
    (containsKey k (removeMinedStep f n t).pendingTXs
      || containsKey k (removeMinedStep f n t).archivedTXs) = true := by
  unfold removeMinedStep
  split
  · by_cases hk : k = f t
    · subst hk
      show (containsKey (f t) (eraseKey (f t) n.pendingTXs)
        || containsKey (f t) (insertKey (f t) t n.archivedTXs)) = true
      rw [containsKey_insertKey_self]
      simp
    · show (containsKey k (eraseKey (f t) n.pendingTXs)
        || containsKey k (insertKey (f t) t n.archivedTXs)) = true
      rw [containsKey_eraseKey_ne k (f t) hk, containsKey_insertKey_ne k (f t) hk]
      exact h
  · exact h

theorem foldRemove_union (f : SignedTx → Hash) :
    ∀ (txs : List SignedTx) (n : Node) (k : Hash),
      (containsKey k n.pendingTXs || containsKey k n.archivedTXs) = true →
      (containsKey k (List.foldl (removeMinedStep f) n txs).pendingTXs
        || containsKey k (List.foldl (removeMinedStep f) n txs).archivedTXs) = true := by
  intro txs
  induction txs with
  | nil => intro n k h; exact h
  | cons t txs ih =>
    intro n k h
    exact ih (removeMinedStep f n t) k (removeMinedStep_union f n t k h)

/-! ## addBlock leaves the mempool maps untouched -/

theorem CheckDifficulty_ok_mempool (w : List BlockFS) (n n' : Node)
    (h : CheckDifficulty w n = .ok n') :
    n'.pendingTXs = n.pendingTXs ∧ n'.archivedTXs = n.archivedTXs := by
  unfold CheckDifficulty at h
  split at h
  · cases hgd : GetNewDifficulty n.miningDifficulty w with
    | error e => rw [hgd] at h; exact Except.noConfusion h
    | ok d =>
      rw [hgd] at h
      injection h with h'
      subst h'
      exact ⟨rfl, rfl⟩
  · injection h with h'
    subst h'
    exact ⟨rfl, rfl⟩

theorem addBlock_mempool (applyBlock : Block → State → Except String State)
    (w : List BlockFS) (n : Node) (b : Block) :
    ((addBlock applyBlock w n b).2).pendingTXs = n.pendingTXs ∧
    ((addBlock applyBlock w n b).2).archivedTXs = n.archivedTXs := by
  unfold addBlock
  cases applyBlock b n.state with
  | error e => exact ⟨rfl, rfl⟩
  | ok st =>
    simp only []
    cases hcd : CheckDifficulty w { n with state := st } with
    | error e => exact ⟨rfl, rfl⟩
    | ok n' =>
      have := CheckDifficulty_ok_mempool w { n with state := st } n' hcd
      exact ⟨this.1, this.2⟩

/-! ## C7 — mined transactions leave the mempool and are archived -/

/-- C7: processing a block through the mined-block path
(`removeMinedPendingTXs` then `addBlock`, as `minePendingTXs` does, and as
the peer path does on cancellation) leaves every transaction of the block
absent from the pending set, and every such transaction that was pending
ends up in the archived set. -/
theorem C7_block_txs_purged (txHashFn : SignedTx → Hash)
    (applyBlock : Block → State → Except String State) (window : List BlockFS)
    (n : Node) (block : Block) (tx : SignedTx) (htx : tx ∈ block.TXs) :
    containsKey (txHashFn tx)
        ((addBlock applyBlock window
          (removeMinedPendingTXs txHashFn n block) block).2).pendingTXs = false ∧
    (containsKey (txHashFn tx) n.pendingTXs = true →
      containsKey (txHashFn tx)
          ((addBlock applyBlock window
            (removeMinedPendingTXs txHashFn n block) block).2).archivedTXs = true) := by
  obtain ⟨hp, ha⟩ := addBlock_mempool applyBlock window
    (removeMinedPendingTXs txHashFn n block) block
  rw [hp, ha]
  constructor
  · exact foldRemove_pending_absent txHashFn block.TXs n tx htx
  · intro hpend
    have hunion := foldRemove_union txHashFn block.TXs n (txHashFn tx)
      (by rw [hpend]; rfl)
    have habsent := foldRemove_pending_absent txHashFn block.TXs n tx htx
    unfold removeMinedPendingTXs
    unfold removeMinedPendingTXs at habsent
    rw [habsent] at hunion
    simpa using hunion

/-- C7 witness: a block containing the single pending transaction. -/
theorem C7_block_txs_purged_witness :
    containsKey (constHash tx0)
        ((addBlock applyBlockOk []
          (removeMinedPendingTXs constHash nodePending blockTx0) blockTx0).2).pendingTXs
      = false ∧
    containsKey (constHash tx0)
        ((addBlock applyBlockOk []
          (removeMinedPendingTXs constHash nodePending blockTx0) blockTx0).2).archivedTXs
      = true :=
  ⟨(C7_block_txs_purged constHash applyBlockOk [] nodePending blockTx0 tx0
      (by decide)).1,
    (C7_block_txs_purged constHash applyBlockOk [] nodePending blockTx0 tx0
      (by decide)).2 (by decide)⟩

end TBP
